import Mathlib

/-!
Verification of the quadtree identifier-traversal engine (`UuidIter`) and its
descent-pruning query optimization, embedded shallowly from `src/uuid_iter.rs`,
together with the surrounding data model (regions, tree nodes, entry store)
modelled from the specification where the corresponding source files are not
part of the repository snapshot.

Entry identifiers (`Uuid` in the source) are modelled as natural numbers; the
generic integer coordinate `U : PrimInt` is instantiated at `Int`.
-/

set_option maxHeartbeats 1000000

/-- Modelled from the spec: the `Area` rectangle type from the missing
`geometry::area` module. Anchor point plus width/height over integers; the
rectangle denotes the half-open box `[x, x+w) x [y, y+h)` of unit cells. -/
structure Area where
  x : Int
  y : Int
  w : Int
  h : Int
deriving DecidableEq, Repr

/-- Modelled from the spec: `Area::contains(other)` is true iff `other`'s
rectangle lies entirely within this rectangle's bounds, closed on the anchor
side and open on the far side (half-open interval semantics). -/
def Area.contains (a o : Area) : Bool :=
  decide (a.x ≤ o.x ∧ o.x + o.w ≤ a.x + a.w ∧ a.y ≤ o.y ∧ o.y + o.h ≤ a.y + a.h)

/-- Modelled from the spec: `Area::intersects(other)` is true iff the two
rectangles share at least one coordinate cell (so a degenerate rectangle with
zero width or height intersects nothing). -/
def Area.intersects (a o : Area) : Bool :=
  decide (0 < a.w ∧ 0 < o.w ∧ a.x < o.x + o.w ∧ o.x < a.x + a.w ∧
          0 < a.h ∧ 0 < o.h ∧ a.y < o.y + o.h ∧ o.y < a.y + a.h)

theorem Area.contains_iff (a o : Area) :
    a.contains o = true ↔
      (a.x ≤ o.x ∧ o.x + o.w ≤ a.x + a.w ∧ a.y ≤ o.y ∧ o.y + o.h ≤ a.y + a.h) := by
  simp [Area.contains]

theorem Area.intersects_iff (a o : Area) :
    a.intersects o = true ↔
      (0 < a.w ∧ 0 < o.w ∧ a.x < o.x + o.w ∧ o.x < a.x + a.w ∧
       0 < a.h ∧ 0 < o.h ∧ a.y < o.y + o.h ∧ o.y < a.y + a.h) := by
  simp [Area.intersects]

/-- Containment of areas is transitive. -/
theorem Area.contains_trans {a b c : Area}
    (hab : a.contains b = true) (hbc : b.contains c = true) : a.contains c = true := by
  rw [Area.contains_iff] at *
  omega

/-- Arithmetic core of the sibling-exclusion argument: if an entry region is
contained in one area, the query region in a second area, and the entry
intersects the query, then the two enclosing areas themselves intersect. -/
theorem Area.intersects_of_contains {e req s q : Area}
    (hse : s.contains e = true) (hqr : q.contains req = true)
    (hint : e.intersects req = true) : s.intersects q = true := by
  rw [Area.contains_iff] at hse hqr
  rw [Area.intersects_iff] at hint ⊢
  omega

/-- The `Traversal` mode enumeration from the missing `traversal` module:
`Strict` selects entries fully contained by the query region, `Overlapping`
selects entries merely intersecting it. -/
inductive Traversal where
  | Strict : Traversal
  | Overlapping : Traversal
deriving DecidableEq, Repr

/-- The recursive quadtree node `QTInner`: a region, the list of entry
identifiers kept at this node (`kept_uuids`), and optionally exactly four
child nodes (`subquadrants: Option<[Box<QTInner>; 4]>` in the source).
`leaf` is the `None` case, `node` the `Some` case with children in array
order. -/
inductive QTInner where
  | leaf (region : Area) (kept : List Nat) : QTInner
  | node (region : Area) (kept : List Nat) (c0 c1 c2 c3 : QTInner) : QTInner
deriving DecidableEq, Repr

/-- The node's region field. -/
def QTInner.region : QTInner → Area
  | .leaf r _ => r
  | .node r _ _ _ _ _ => r

/-- The node's `kept_uuids` field. -/
def QTInner.kept_uuids : QTInner → List Nat
  | .leaf _ k => k
  | .node _ k _ _ _ _ => k

/-- The node's children in array order (empty for a leaf), i.e. the list
obtained from iterating `subquadrants` when present. -/
def QTInner.childrenList : QTInner → List QTInner
  | .leaf _ _ => []
  | .node _ _ c0 c1 c2 c3 => [c0, c1, c2, c3]

/-- The node's children in reversed order: pushing the children onto a
`Vec`-based stack (`qt_stack.extend(sqs)`) makes the last child the new top,
so with list-head-as-stack-top the pushed block is the reversed child list. -/
def QTInner.childrenRev : QTInner → List QTInner
  | .leaf _ _ => []
  | .node _ _ c0 c1 c2 c3 => [c3, c2, c1, c0]

/-- Size measure of a subtree: one per node plus one per kept identifier. -/
def QTInner.weight : QTInner → Nat
  | .leaf _ k => 1 + k.length
  | .node _ k c0 c1 c2 c3 => 1 + k.length + c0.weight + c1.weight + c2.weight + c3.weight

/-- All nodes of the subtree rooted at a node (the node itself included). -/
def QTInner.subNodes : QTInner → List QTInner
  | .leaf r k => [.leaf r k]
  | .node r k c0 c1 c2 c3 =>
    .node r k c0 c1 c2 c3 :: (c0.subNodes ++ c1.subNodes ++ c2.subNodes ++ c3.subNodes)

/-- All entry identifiers kept at any node of the subtree rooted at a node. -/
def QTInner.allKept : QTInner → List Nat
  | .leaf _ k => k
  | .node _ k c0 c1 c2 c3 => k ++ (c0.allKept ++ c1.allKept ++ c2.allKept ++ c3.allKept)

theorem QTInner.weight_pos (qt : QTInner) : 0 < qt.weight := by
  cases qt <;> simp [QTInner.weight]

/-- The traversal engine `UuidIter`. Stacks are lists with the head as the
`Vec` top; the `HashSet` of visited identifiers is a list with membership
standing for set membership. -/
structure UuidIter where
  uuid_stack : List Nat
  qt_stack : List QTInner
  visited : List Nat
deriving DecidableEq, Repr

namespace UuidIter

/-- `UuidIter::new`: a fresh engine holding only the starting node. -/
def new (qt : QTInner) : UuidIter :=
  { uuid_stack := [], qt_stack := [qt], visited := [] }

/-- Termination measure for `next`: pending identifiers plus the weights of
all pending subtrees. Each internal recursion of `next` strictly decreases
it. -/
def sizeMeasure (it : UuidIter) : Nat :=
  it.uuid_stack.length + (it.qt_stack.map QTInner.weight).sum

/-- Fuel-indexed evaluator for `Iterator::next`. A fresh fuel of
`sizeMeasure it` always suffices (see `nextFuel_congr`), which is how `next`
below is defined; the body is a direct transcription of the source:
pop the uuid stack, skipping identifiers already in `visited`; otherwise pop
the qt stack, pushing the popped node's kept identifiers and children; else
return `none`. -/
def nextFuel : Nat → UuidIter → Option (Nat × UuidIter)
  | 0, _ => none
  | f + 1, it =>
    match it.uuid_stack with
    | u :: rest =>
      if u ∈ it.visited then
        nextFuel f { uuid_stack := rest, qt_stack := it.qt_stack, visited := it.visited }
      else
        some (u, { uuid_stack := rest, qt_stack := it.qt_stack, visited := u :: it.visited })
    | [] =>
      match it.qt_stack with
      | qt :: qrest =>
        nextFuel f { uuid_stack := qt.kept_uuids.reverse,
                     qt_stack := qt.childrenRev ++ qrest,
                     visited := it.visited }
      | [] => none

theorem sizeMeasure_expand (qt : QTInner) (qrest : List QTInner) (vis : List Nat) :
    sizeMeasure { uuid_stack := qt.kept_uuids.reverse,
                  qt_stack := qt.childrenRev ++ qrest, visited := vis } + 1 =
    sizeMeasure { uuid_stack := ([] : List Nat), qt_stack := qt :: qrest, visited := vis } := by
  cases qt <;>
    simp [sizeMeasure, QTInner.kept_uuids, QTInner.childrenRev, QTInner.weight] <;> omega

theorem nextFuel_nil (f : Nat) (vis : List Nat) :
    nextFuel f { uuid_stack := [], qt_stack := [], visited := vis } = none := by
  cases f <;> simp [nextFuel]

theorem nextFuel_congr :
    ∀ (f g : Nat) (it : UuidIter), sizeMeasure it ≤ f → sizeMeasure it ≤ g →
      nextFuel f it = nextFuel g it := by
  intro f
  induction f with
  | zero =>
    intro g it hf _
    obtain ⟨us, qs, vis⟩ := it
    have hus : us = [] := by
      cases us with
      | nil => rfl
      | cons a l => simp [sizeMeasure] at hf
    have hqs : qs = [] := by
      cases qs with
      | nil => rfl
      | cons q l =>
        exfalso
        have := QTInner.weight_pos q
        simp [sizeMeasure] at hf
        omega
    subst hus; subst hqs
    rw [nextFuel_nil, nextFuel_nil]
  | succ f ih =>
    intro g it hf hg
    cases g with
    | zero =>
      obtain ⟨us, qs, vis⟩ := it
      have hus : us = [] := by
        cases us with
        | nil => rfl
        | cons a l => simp [sizeMeasure] at hg
      have hqs : qs = [] := by
        cases qs with
        | nil => rfl
        | cons q l =>
          exfalso
          have := QTInner.weight_pos q
          simp [sizeMeasure] at hg
          omega
      subst hus; subst hqs
      rw [nextFuel_nil, nextFuel_nil]
    | succ g =>
      obtain ⟨us, qs, vis⟩ := it
      cases us with
      | cons u rest =>
        by_cases hu : u ∈ vis
        · simp only [nextFuel, hu, if_pos]
          exact ih g _ (by simp [sizeMeasure] at hf ⊢; omega)
            (by simp [sizeMeasure] at hg ⊢; omega)
        · simp only [nextFuel, hu, if_neg, not_false_iff]
      | nil =>
        cases qs with
        | nil => rw [nextFuel_nil, nextFuel_nil]
        | cons qt qrest =>
          simp only [nextFuel]
          have hm := sizeMeasure_expand qt qrest vis
          exact ih g _ (by omega) (by omega)

end UuidIter

namespace UuidIter

/-- `Iterator::next` for `UuidIter`, evaluated with sufficient fuel. -/
def next (it : UuidIter) : Option (Nat × UuidIter) :=
  nextFuel (sizeMeasure it) it

theorem next_eq_fuel (f : Nat) (it : UuidIter) (hf : sizeMeasure it ≤ f) :
    next it = nextFuel f it :=
  nextFuel_congr _ _ it le_rfl hf

/-- Equation: popping an already-visited identifier skips it and recurses. -/
theorem next_cons_mem {u : Nat} {rest vis : List Nat} {qs : List QTInner}
    (hu : u ∈ vis) :
    next { uuid_stack := u :: rest, qt_stack := qs, visited := vis } =
    next { uuid_stack := rest, qt_stack := qs, visited := vis } := by
  rw [next]
  have h1 : sizeMeasure { uuid_stack := u :: rest, qt_stack := qs, visited := vis } =
      sizeMeasure { uuid_stack := rest, qt_stack := qs, visited := vis } + 1 := by
    simp [sizeMeasure]; omega
  rw [h1]
  simp only [nextFuel, hu, if_pos]
  exact (next_eq_fuel _ _ (by omega)).symm

/-- Equation: popping a fresh identifier yields it and records it as visited. -/
theorem next_cons_notmem {u : Nat} {rest vis : List Nat} {qs : List QTInner}
    (hu : u ∉ vis) :
    next { uuid_stack := u :: rest, qt_stack := qs, visited := vis } =
    some (u, { uuid_stack := rest, qt_stack := qs, visited := u :: vis }) := by
  rw [next]
  have h1 : sizeMeasure { uuid_stack := u :: rest, qt_stack := qs, visited := vis } =
      sizeMeasure { uuid_stack := rest, qt_stack := qs, visited := vis } + 1 := by
    simp [sizeMeasure]; omega
  rw [h1]
  simp only [nextFuel, hu, if_neg, not_false_iff]

/-- Equation: with no pending identifier, pop a node and expand it: its kept
identifiers go onto the uuid stack and its children onto the qt stack. -/
theorem next_expand {vis : List Nat} {qt : QTInner} {qrest : List QTInner} :
    next { uuid_stack := [], qt_stack := qt :: qrest, visited := vis } =
    next { uuid_stack := qt.kept_uuids.reverse,
           qt_stack := qt.childrenRev ++ qrest, visited := vis } := by
  rw [next]
  have hm := sizeMeasure_expand qt qrest vis
  have h1 : sizeMeasure { uuid_stack := ([] : List Nat), qt_stack := qt :: qrest,
                          visited := vis } =
      sizeMeasure { uuid_stack := qt.kept_uuids.reverse,
                    qt_stack := qt.childrenRev ++ qrest, visited := vis } + 1 := by omega
  rw [h1]
  simp only [nextFuel]
  exact (next_eq_fuel _ _ (by omega)).symm

/-- Equation: both stacks empty means exhaustion. -/
theorem next_nil {vis : List Nat} :
    next { uuid_stack := [], qt_stack := [], visited := vis } = none := by
  rw [next]; exact nextFuel_nil _ _

theorem nextFuel_some_measure_lt :
    ∀ (f : Nat) (it it' : UuidIter) (u : Nat), nextFuel f it = some (u, it') →
      sizeMeasure it' < sizeMeasure it := by
  intro f
  induction f with
  | zero => intro it it' u h; simp [nextFuel] at h
  | succ f ih =>
    intro it it' u h
    obtain ⟨us, qs, vis⟩ := it
    cases us with
    | cons v rest =>
      by_cases hv : v ∈ vis
      · simp only [nextFuel, hv, if_pos] at h
        have := ih _ _ _ h
        simp [sizeMeasure] at this ⊢
        omega
      · simp only [nextFuel, hv, if_neg, not_false_iff, Option.some.injEq,
          Prod.mk.injEq] at h
        obtain ⟨h1, h2⟩ := h
        subst h2
        simp [sizeMeasure]
    | nil =>
      cases qs with
      | nil => rw [nextFuel_nil] at h; exact absurd h (by simp)
      | cons qt qrest =>
        simp only [nextFuel] at h
        have := ih _ _ _ h
        have hm := sizeMeasure_expand qt qrest vis
        omega

/-- Each successful `next` strictly decreases the measure. -/
theorem next_some_measure_lt {it it' : UuidIter} {u : Nat}
    (h : next it = some (u, it')) : sizeMeasure it' < sizeMeasure it :=
  nextFuel_some_measure_lt _ _ _ _ h

/-- Fuel-indexed evaluator for running the iterator to exhaustion; fuel
`sizeMeasure it` always suffices. -/
def drainFuel : Nat → UuidIter → List Nat
  | 0, _ => []
  | f + 1, it =>
    match next it with
    | none => []
    | some (u, it') => u :: drainFuel f it'

/-- The full list of identifiers yielded by iterating until `next` returns
`none`. -/
def drain (it : UuidIter) : List Nat :=
  drainFuel (sizeMeasure it) it

theorem drainFuel_congr :
    ∀ (f g : Nat) (it : UuidIter), sizeMeasure it ≤ f → sizeMeasure it ≤ g →
      drainFuel f it = drainFuel g it := by
  intro f
  induction f with
  | zero =>
    intro g it hf _
    have hz : sizeMeasure it = 0 := by omega
    obtain ⟨us, qs, vis⟩ := it
    have hus : us = [] := by
      cases us with
      | nil => rfl
      | cons a l => simp [sizeMeasure] at hz
    have hqs : qs = [] := by
      cases qs with
      | nil => rfl
      | cons q l =>
        exfalso
        have := QTInner.weight_pos q
        simp [sizeMeasure] at hz
        omega
    subst hus; subst hqs
    cases g with
    | zero => rfl
    | succ g => simp [drainFuel, next_nil]
  | succ f ih =>
    intro g it hf hg
    cases g with
    | zero =>
      have hz : sizeMeasure it = 0 := by omega
      obtain ⟨us, qs, vis⟩ := it
      have hus : us = [] := by
        cases us with
        | nil => rfl
        | cons a l => simp [sizeMeasure] at hz
      have hqs : qs = [] := by
        cases qs with
        | nil => rfl
        | cons q l =>
          exfalso
          have := QTInner.weight_pos q
          simp [sizeMeasure] at hz
          omega
      subst hus; subst hqs
      simp [drainFuel, next_nil]
    | succ g =>
      cases h : next it with
      | none => simp [drainFuel, h]
      | some p =>
        obtain ⟨u, it'⟩ := p
        have hlt := next_some_measure_lt h
        simp only [drainFuel, h]
        rw [ih g it' (by omega) (by omega)]

theorem drain_eq_fuel (f : Nat) (it : UuidIter) (hf : sizeMeasure it ≤ f) :
    drain it = drainFuel f it :=
  drainFuel_congr _ _ it le_rfl hf

/-- Equation: an exhausted iterator drains to the empty list. -/
theorem drain_eq_nil {it : UuidIter} (h : next it = none) : drain it = [] := by
  rw [drain]
  cases hm : sizeMeasure it with
  | zero => rfl
  | succ f => simp [drainFuel, h]

/-- Equation: a successful `next` contributes its identifier to the drain. -/
theorem drain_eq_cons {it it' : UuidIter} {u : Nat}
    (h : next it = some (u, it')) : drain it = u :: drain it' := by
  have hlt := next_some_measure_lt h
  rw [drain]
  cases hm : sizeMeasure it with
  | zero => omega
  | succ f =>
    simp only [drainFuel, h]
    rw [← drain_eq_fuel f it' (by omega)]

end UuidIter

namespace UuidIter

theorem drain_congr_next {it it' : UuidIter} (h : next it = next it') :
    drain it = drain it' := by
  cases hn : next it with
  | none => rw [drain_eq_nil hn, drain_eq_nil (h.symm.trans hn)]
  | some p =>
    obtain ⟨u, itn⟩ := p
    rw [drain_eq_cons hn, drain_eq_cons (h.symm.trans hn)]

theorem mem_allKept_iff (qt : QTInner) (u : Nat) :
    u ∈ qt.allKept ↔ u ∈ qt.kept_uuids ∨ ∃ c ∈ qt.childrenList, u ∈ c.allKept := by
  cases qt <;>
    simp [QTInner.allKept, QTInner.kept_uuids, QTInner.childrenList]

theorem mem_childrenRev_iff (qt c : QTInner) :
    c ∈ qt.childrenRev ↔ c ∈ qt.childrenList := by
  cases qt <;> simp [QTInner.childrenRev, QTInner.childrenList]
  tauto

theorem mem_drain_aux :
    ∀ (k : Nat) (it : UuidIter), sizeMeasure it ≤ k → ∀ u,
      (u ∈ drain it ↔
        ((u ∈ it.uuid_stack ∨ ∃ qt ∈ it.qt_stack, u ∈ qt.allKept) ∧ u ∉ it.visited)) := by
  intro k
  induction k with
  | zero =>
    intro it hk u
    obtain ⟨us, qs, vis⟩ := it
    have hus : us = [] := by
      cases us with
      | nil => rfl
      | cons a l => simp [sizeMeasure] at hk
    have hqs : qs = [] := by
      cases qs with
      | nil => rfl
      | cons q l =>
        exfalso
        have := QTInner.weight_pos q
        simp [sizeMeasure] at hk
        omega
    subst hus; subst hqs
    rw [drain_eq_nil next_nil]
    simp
  | succ k ih =>
    intro it hk u
    obtain ⟨us, qs, vis⟩ := it
    cases us with
    | cons v rest =>
      by_cases hv : v ∈ vis
      · rw [drain_congr_next (next_cons_mem hv)]
        rw [ih { uuid_stack := rest, qt_stack := qs, visited := vis }
          (by simp [sizeMeasure] at hk ⊢; omega) u]
        simp only [List.mem_cons]
        by_cases huv : u = v
        · subst huv; simp [hv]
        · tauto
      · rw [drain_eq_cons (next_cons_notmem hv)]
        simp only [List.mem_cons]
        rw [ih { uuid_stack := rest, qt_stack := qs, visited := v :: vis }
          (by simp [sizeMeasure] at hk ⊢; omega) u]
        simp only [List.mem_cons]
        by_cases huv : u = v
        · subst huv; simp [hv]
        · simp [huv]
    | nil =>
      cases qs with
      | nil =>
        rw [drain_eq_nil next_nil]
        simp
      | cons qt qrest =>
        rw [drain_congr_next next_expand]
        have hm := sizeMeasure_expand qt qrest vis
        rw [ih { uuid_stack := qt.kept_uuids.reverse,
                 qt_stack := qt.childrenRev ++ qrest, visited := vis }
          (by omega) u]
        simp only [List.mem_reverse, List.mem_append, List.not_mem_nil, false_or,
          List.mem_cons]
        constructor
        · rintro ⟨h1, h2⟩
          refine ⟨?_, h2⟩
          rcases h1 with hk1 | ⟨c, hc, hck⟩
          · exact ⟨qt, Or.inl rfl, (mem_allKept_iff qt u).2 (Or.inl hk1)⟩
          · rcases hc with hc | hc
            · exact ⟨qt, Or.inl rfl,
                (mem_allKept_iff qt u).2 (Or.inr ⟨c, (mem_childrenRev_iff qt c).1 hc, hck⟩)⟩
            · exact ⟨c, Or.inr hc, hck⟩
        · rintro ⟨⟨q, hq, hqk⟩, h2⟩
          refine ⟨?_, h2⟩
          rcases hq with rfl | hq
          · rcases (mem_allKept_iff q u).1 hqk with hk1 | ⟨c, hc, hck⟩
            · exact Or.inl hk1
            · exact Or.inr ⟨c, Or.inl ((mem_childrenRev_iff q c).2 hc), hck⟩
          · exact Or.inr ⟨q, Or.inr hq, hqk⟩

/-- Membership in the drained identifier list: an identifier is yielded iff it
is pending on one of the two stacks (a kept identifier of a pending subtree)
and has not already been visited. -/
theorem mem_drain (it : UuidIter) (u : Nat) :
    u ∈ drain it ↔
      ((u ∈ it.uuid_stack ∨ ∃ qt ∈ it.qt_stack, u ∈ qt.allKept) ∧ u ∉ it.visited) :=
  mem_drain_aux (sizeMeasure it) it le_rfl u

theorem drain_nodup_aux :
    ∀ (k : Nat) (it : UuidIter), sizeMeasure it ≤ k → (drain it).Nodup := by
  intro k
  induction k with
  | zero =>
    intro it hk
    obtain ⟨us, qs, vis⟩ := it
    have hus : us = [] := by
      cases us with
      | nil => rfl
      | cons a l => simp [sizeMeasure] at hk
    have hqs : qs = [] := by
      cases qs with
      | nil => rfl
      | cons q l =>
        exfalso
        have := QTInner.weight_pos q
        simp [sizeMeasure] at hk
        omega
    subst hus; subst hqs
    rw [drain_eq_nil next_nil]
    simp
  | succ k ih =>
    intro it hk
    obtain ⟨us, qs, vis⟩ := it
    cases us with
    | cons v rest =>
      by_cases hv : v ∈ vis
      · rw [drain_congr_next (next_cons_mem hv)]
        exact ih _ (by simp [sizeMeasure] at hk ⊢; omega)
      · rw [drain_eq_cons (next_cons_notmem hv)]
        refine List.nodup_cons.2 ⟨?_, ih _ (by simp [sizeMeasure] at hk ⊢; omega)⟩
        rw [mem_drain]
        simp
    | nil =>
      cases qs with
      | nil =>
        rw [drain_eq_nil next_nil]
        simp
      | cons qt qrest =>
        rw [drain_congr_next next_expand]
        have hm := sizeMeasure_expand qt qrest vis
        exact ih _ (by omega)

/-- The drained identifier list never repeats an identifier. -/
theorem drain_nodup (it : UuidIter) : (drain it).Nodup :=
  drain_nodup_aux (sizeMeasure it) it le_rfl

theorem nextFuel_some_spec :
    ∀ (f : Nat) (it it' : UuidIter) (u : Nat), nextFuel f it = some (u, it') →
      u ∉ it.visited ∧ it'.visited = u :: it.visited := by
  intro f
  induction f with
  | zero => intro it it' u h; simp [nextFuel] at h
  | succ f ih =>
    intro it it' u h
    obtain ⟨us, qs, vis⟩ := it
    cases us with
    | cons v rest =>
      by_cases hv : v ∈ vis
      · simp only [nextFuel, hv, if_pos] at h
        have h3 := ih _ _ _ h
        exact h3
      · simp only [nextFuel, hv, if_neg, not_false_iff, Option.some.injEq,
          Prod.mk.injEq] at h
        obtain ⟨h1, h2⟩ := h
        subst h1; subst h2
        exact ⟨hv, rfl⟩
    | nil =>
      cases qs with
      | nil => rw [nextFuel_nil] at h; exact absurd h (by simp)
      | cons qt qrest =>
        simp only [nextFuel] at h
        have h3 := ih _ _ _ h
        exact h3

/-- A successful `next` yields an identifier that was not yet visited and
records exactly it as newly visited. -/
theorem next_some_spec {it it' : UuidIter} {u : Nat}
    (h : next it = some (u, it')) :
    u ∉ it.visited ∧ it'.visited = u :: it.visited :=
  nextFuel_some_spec _ _ _ _ h

end UuidIter

/-- Kept identifiers pushed when the descent leaves a node: the source runs
`self.uuid_stack.extend(&qt.kept_uuids)` only when the traversal mode is
`Overlapping` (appending onto the `Vec` top, hence the reversed block with
head-as-top lists). -/
def pushKept (tm : Traversal) (k us : List Nat) : List Nat :=
  if tm = Traversal.Overlapping then k.reverse ++ us else us

/-- Core of `UuidIter::descend_recurse_step`, acting on the sole pending node
and the identifier stack. At each call: if the node's region does not contain
the query region, stop; otherwise scan the four subquadrants in order and
descend into the first one whose region fully contains the query region,
pushing the kept identifiers of the node being left when the mode is
`Overlapping`; with no subquadrants, or none containing, stop. Returns the
final identifier stack and the final sole node. -/
def descendCore (req : Area) (tm : Traversal) : QTInner → List Nat → List Nat × QTInner
  | .leaf r k, us => (us, .leaf r k)
  | .node r k c0 c1 c2 c3, us =>
    if r.contains req then
      if c0.region.contains req then descendCore req tm c0 (pushKept tm k us)
      else if c1.region.contains req then descendCore req tm c1 (pushKept tm k us)
      else if c2.region.contains req then descendCore req tm c2 (pushKept tm k us)
      else if c3.region.contains req then descendCore req tm c3 (pushKept tm k us)
      else (us, .node r k c0 c1 c2 c3)
    else (us, .node r k c0 c1 c2 c3)

namespace UuidIter

/-- `UuidIter::descend_recurse_step`. The source asserts
`self.qt_stack.len() == 1` at entry (a panic otherwise); the embedding is the
descent core in the asserted single-node case and the identity elsewhere
(the assertion discharge is proved separately). -/
def descend_recurse_step (req : Area) (tm : Traversal) (it : UuidIter) : UuidIter :=
  match it.qt_stack with
  | [qt] =>
    let p := descendCore req tm qt it.uuid_stack
    { uuid_stack := p.1, qt_stack := [p.2], visited := it.visited }
  | _ => it

/-- `UuidIter::query_optimization`: asserts the freshly-constructed state
(single pending node, empty identifier stack, empty visited set) and runs the
recursive descent step. -/
def query_optimization (req : Area) (tm : Traversal) (it : UuidIter) : UuidIter :=
  descend_recurse_step req tm it

end UuidIter

/-- The anchor node of the descent-pruning pre-pass: the node at which the
descent from `qt` for query region `req` stops. -/
def descendAnchor (req : Area) : QTInner → QTInner
  | .leaf r k => .leaf r k
  | .node r k c0 c1 c2 c3 =>
    if r.contains req then
      if c0.region.contains req then descendAnchor req c0
      else if c1.region.contains req then descendAnchor req c1
      else if c2.region.contains req then descendAnchor req c2
      else if c3.region.contains req then descendAnchor req c3
      else .node r k c0 c1 c2 c3
    else .node r k c0 c1 c2 c3

/-- The ancestors left behind by the descent-pruning pre-pass, root-most
first (each one a node from which the descent moved into a child). -/
def descendLeft (req : Area) : QTInner → List QTInner
  | .leaf _ _ => []
  | .node r k c0 c1 c2 c3 =>
    if r.contains req then
      if c0.region.contains req then .node r k c0 c1 c2 c3 :: descendLeft req c0
      else if c1.region.contains req then .node r k c0 c1 c2 c3 :: descendLeft req c1
      else if c2.region.contains req then .node r k c0 c1 c2 c3 :: descendLeft req c2
      else if c3.region.contains req then .node r k c0 c1 c2 c3 :: descendLeft req c3
      else []
    else []

/-- Concatenation of the kept identifiers of a list of nodes. -/
def keptConcat : List QTInner → List Nat
  | [] => []
  | n :: rest => n.kept_uuids ++ keptConcat rest

/-- Identifier stack produced by pushing the kept identifiers of the listed
nodes in order (only in `Overlapping` mode) on top of an initial stack. -/
def pushAll (tm : Traversal) (L : List QTInner) (us : List Nat) : List Nat :=
  if tm = Traversal.Overlapping then (keptConcat L).reverse ++ us else us

theorem pushAll_nil (tm : Traversal) (us : List Nat) : pushAll tm [] us = us := by
  cases tm <;> simp [pushAll, keptConcat]

theorem pushAll_cons (tm : Traversal) (n : QTInner) (L : List QTInner) (us : List Nat) :
    pushAll tm (n :: L) us = pushAll tm L (pushKept tm n.kept_uuids us) := by
  cases tm <;> simp [pushAll, pushKept, keptConcat, List.reverse_append, List.append_assoc]

/-- The descent core computes exactly the ancestor pushes described by
`descendLeft` (in `Overlapping` mode only) and lands on `descendAnchor`. -/
theorem descendCore_spec (req : Area) (tm : Traversal) :
    ∀ (qt : QTInner) (us : List Nat),
      descendCore req tm qt us = (pushAll tm (descendLeft req qt) us, descendAnchor req qt) := by
  intro qt
  induction qt with
  | leaf r k =>
    intro us
    simp [descendCore, descendLeft, descendAnchor, pushAll_nil]
  | node r k c0 c1 c2 c3 ih0 ih1 ih2 ih3 =>
    intro us
    by_cases hr : r.contains req = true
    · by_cases hc0 : c0.region.contains req = true
      · simp [descendCore, descendLeft, descendAnchor, hr, hc0, ih0, pushAll_cons,
          QTInner.kept_uuids]
      · by_cases hc1 : c1.region.contains req = true
        · simp [descendCore, descendLeft, descendAnchor, hr, hc0, hc1, ih1, pushAll_cons,
            QTInner.kept_uuids]
        · by_cases hc2 : c2.region.contains req = true
          · simp [descendCore, descendLeft, descendAnchor, hr, hc0, hc1, hc2, ih2,
              pushAll_cons, QTInner.kept_uuids]
          · by_cases hc3 : c3.region.contains req = true
            · simp [descendCore, descendLeft, descendAnchor, hr, hc0, hc1, hc2, hc3, ih3,
                pushAll_cons, QTInner.kept_uuids]
            · simp [descendCore, descendLeft, descendAnchor, hr, hc0, hc1, hc2, hc3,
                pushAll_nil]
    · simp [descendCore, descendLeft, descendAnchor, hr, pushAll_nil]

/-- State of the engine after the descent-pruning pre-pass on a fresh
iterator: ancestor pushes on the identifier stack, the anchor as sole pending
node, visited set still empty. -/
theorem query_optimization_new (req : Area) (tm : Traversal) (qt : QTInner) :
    UuidIter.query_optimization req tm (UuidIter.new qt) =
      { uuid_stack := pushAll tm (descendLeft req qt) [],
        qt_stack := [descendAnchor req qt], visited := [] } := by
  simp [UuidIter.query_optimization, UuidIter.descend_recurse_step, UuidIter.new,
    descendCore_spec]

theorem descendAnchor_of_not_contains {req : Area} {qt : QTInner}
    (h : qt.region.contains req = false) : descendAnchor req qt = qt := by
  cases qt with
  | leaf r k => simp [descendAnchor]
  | node r k c0 c1 c2 c3 =>
    simp only [QTInner.region] at h
    simp [descendAnchor, h]

theorem descendLeft_of_not_contains {req : Area} {qt : QTInner}
    (h : qt.region.contains req = false) : descendLeft req qt = [] := by
  cases qt with
  | leaf r k => simp [descendLeft]
  | node r k c0 c1 c2 c3 =>
    simp only [QTInner.region] at h
    simp [descendLeft, h]

/-- Whenever the starting region contains the query region, so does the
anchor's region. -/
theorem descendAnchor_contains (req : Area) :
    ∀ qt : QTInner, qt.region.contains req = true →
      (descendAnchor req qt).region.contains req = true := by
  intro qt
  induction qt with
  | leaf r k => intro h; simpa [descendAnchor] using h
  | node r k c0 c1 c2 c3 ih0 ih1 ih2 ih3 =>
    intro h
    simp only [QTInner.region] at h
    by_cases hc0 : c0.region.contains req = true
    · simpa [descendAnchor, h, hc0] using ih0 hc0
    · by_cases hc1 : c1.region.contains req = true
      · simpa [descendAnchor, h, hc0, hc1] using ih1 hc1
      · by_cases hc2 : c2.region.contains req = true
        · simpa [descendAnchor, h, hc0, hc1, hc2] using ih2 hc2
        · by_cases hc3 : c3.region.contains req = true
          · simpa [descendAnchor, h, hc0, hc1, hc2, hc3] using ih3 hc3
          · have hfix : descendAnchor req (QTInner.node r k c0 c1 c2 c3) =
                QTInner.node r k c0 c1 c2 c3 := by
              simp [descendAnchor, h, hc0, hc1, hc2, hc3]
            rw [hfix]
            simpa [QTInner.region] using h

/-- When the starting region contains the query region, no child of the
anchor's region fully contains the query region (the descent stopped there
for that very reason). -/
theorem descendAnchor_no_child_contains (req : Area) :
    ∀ qt : QTInner, qt.region.contains req = true →
      ∀ c ∈ (descendAnchor req qt).childrenList, c.region.contains req = false := by
  intro qt
  induction qt with
  | leaf r k =>
    intro _ c hc
    simp [descendAnchor, QTInner.childrenList] at hc
  | node r k c0 c1 c2 c3 ih0 ih1 ih2 ih3 =>
    intro h c hc
    simp only [QTInner.region] at h
    by_cases hc0 : c0.region.contains req = true
    · rw [descendAnchor] at hc
      simp only [h, hc0, if_pos] at hc
      exact ih0 hc0 c hc
    · by_cases hc1 : c1.region.contains req = true
      · rw [descendAnchor] at hc
        simp only [h, hc0, hc1, if_pos, if_neg, Bool.false_eq_true, not_false_iff] at hc
        exact ih1 hc1 c hc
      · by_cases hc2 : c2.region.contains req = true
        · rw [descendAnchor] at hc
          simp only [h, hc0, hc1, hc2, if_pos, if_neg, Bool.false_eq_true,
            not_false_iff] at hc
          exact ih2 hc2 c hc
        · by_cases hc3 : c3.region.contains req = true
          · rw [descendAnchor] at hc
            simp only [h, hc0, hc1, hc2, hc3, if_pos, if_neg, Bool.false_eq_true,
              not_false_iff] at hc
            exact ih3 hc3 c hc
          · rw [descendAnchor] at hc
            simp only [h, hc0, hc1, hc2, hc3, if_pos, if_neg, Bool.false_eq_true,
              not_false_iff, if_true] at hc
            simp only [QTInner.childrenList, List.mem_cons, List.mem_singleton,
              List.not_mem_nil, or_false] at hc
            rcases hc with rfl | rfl | rfl | rfl
            · simpa using hc0
            · simpa using hc1
            · simpa using hc2
            · simpa using hc3

theorem Area.contains_refl (a : Area) : a.contains a = true := by
  rw [Area.contains_iff]
  omega

theorem Area.intersects_comm (a b : Area) : a.intersects b = b.intersects a := by
  simp only [Area.intersects]
  rw [decide_eq_decide]
  omega

/-- Pairwise disjointness of the four subquadrant regions of a node (one half
of the children-tile-the-parent invariant). -/
def sibsDisjoint : QTInner → Prop
  | .leaf _ _ => True
  | .node _ _ c0 c1 c2 c3 =>
      c0.region.intersects c1.region = false ∧ c0.region.intersects c2.region = false ∧
      c0.region.intersects c3.region = false ∧ c1.region.intersects c2.region = false ∧
      c1.region.intersects c3.region = false ∧ c2.region.intersects c3.region = false

/-- Local node invariant with respect to an entry store (`dom` the list of
live entry identifiers, `store` their regions): children's regions lie in the
parent's region and are pairwise disjoint (consequences of exact quadrant
tiling), and an identifier of the store is kept at the node iff the node's
region contains the entry's region while no child's region does (the
entry-kept-at-the-deepest-containing-node invariant); kept identifiers are
live. -/
def nodeOk (dom : List Nat) (store : Nat → Area) (n : QTInner) : Prop :=
  (∀ c ∈ n.childrenList, n.region.contains c.region = true) ∧
  sibsDisjoint n ∧
  (∀ u ∈ dom, (u ∈ n.kept_uuids ↔
      (n.region.contains (store u) = true ∧
       ∀ c ∈ n.childrenList, c.region.contains (store u) = false))) ∧
  (∀ u ∈ n.kept_uuids, u ∈ dom)

/-- Whole-tree node invariant: every node of the subtree satisfies the local
invariant. -/
def treeInv (dom : List Nat) (store : Nat → Area) (qt : QTInner) : Prop :=
  ∀ n ∈ qt.subNodes, nodeOk dom store n

theorem self_mem_subNodes (qt : QTInner) : qt ∈ qt.subNodes := by
  cases qt <;> simp [QTInner.subNodes]

theorem mem_subNodes_of_child {qt c n : QTInner}
    (hc : c ∈ qt.childrenList) (hn : n ∈ c.subNodes) : n ∈ qt.subNodes := by
  cases qt with
  | leaf r k => simp [QTInner.childrenList] at hc
  | node r k c0 c1 c2 c3 =>
    simp only [QTInner.childrenList, List.mem_cons, List.not_mem_nil, or_false] at hc
    simp only [QTInner.subNodes, List.mem_cons, List.mem_append]
    rcases hc with rfl | rfl | rfl | rfl <;> tauto

theorem subNodes_trans : ∀ (qt n m : QTInner), n ∈ qt.subNodes → m ∈ n.subNodes →
    m ∈ qt.subNodes := by
  intro qt
  induction qt with
  | leaf r k =>
    intro n m hn hm
    simp only [QTInner.subNodes, List.mem_singleton] at hn
    subst hn
    exact hm
  | node r k c0 c1 c2 c3 ih0 ih1 ih2 ih3 =>
    intro n m hn hm
    simp only [QTInner.subNodes, List.mem_cons, List.mem_append] at hn
    rcases hn with rfl | (((hn | hn) | hn) | hn)
    · exact hm
    · exact mem_subNodes_of_child (by simp [QTInner.childrenList]) (ih0 n m hn hm)
    · exact mem_subNodes_of_child (by simp [QTInner.childrenList]) (ih1 n m hn hm)
    · exact mem_subNodes_of_child (by simp [QTInner.childrenList]) (ih2 n m hn hm)
    · exact mem_subNodes_of_child (by simp [QTInner.childrenList]) (ih3 n m hn hm)

theorem treeInv_self {dom : List Nat} {store : Nat → Area} {qt : QTInner}
    (h : treeInv dom store qt) : nodeOk dom store qt :=
  h qt (self_mem_subNodes qt)

theorem treeInv_child {dom : List Nat} {store : Nat → Area} {qt c : QTInner}
    (h : treeInv dom store qt) (hc : c ∈ qt.childrenList) : treeInv dom store c :=
  fun n hn => h n (mem_subNodes_of_child hc (subNodes_trans c c n (self_mem_subNodes c) hn))

theorem region_mono {dom : List Nat} {store : Nat → Area} :
    ∀ (qt n : QTInner), treeInv dom store qt → n ∈ qt.subNodes →
      qt.region.contains n.region = true := by
  intro qt
  induction qt with
  | leaf r k =>
    intro n _ hn
    simp only [QTInner.subNodes, List.mem_singleton] at hn
    subst hn
    exact Area.contains_refl _
  | node r k c0 c1 c2 c3 ih0 ih1 ih2 ih3 =>
    intro n hinv hn
    have hok := treeInv_self hinv
    simp only [QTInner.subNodes, List.mem_cons, List.mem_append] at hn
    rcases hn with rfl | (((hn | hn) | hn) | hn)
    · exact Area.contains_refl _
    · exact Area.contains_trans (hok.1 c0 (by simp [QTInner.childrenList]))
        (ih0 n (treeInv_child hinv (by simp [QTInner.childrenList])) hn)
    · exact Area.contains_trans (hok.1 c1 (by simp [QTInner.childrenList]))
        (ih1 n (treeInv_child hinv (by simp [QTInner.childrenList])) hn)
    · exact Area.contains_trans (hok.1 c2 (by simp [QTInner.childrenList]))
        (ih2 n (treeInv_child hinv (by simp [QTInner.childrenList])) hn)
    · exact Area.contains_trans (hok.1 c3 (by simp [QTInner.childrenList]))
        (ih3 n (treeInv_child hinv (by simp [QTInner.childrenList])) hn)

theorem allKept_exists : ∀ (qt : QTInner) (u : Nat), u ∈ qt.allKept →
    ∃ n ∈ qt.subNodes, u ∈ n.kept_uuids := by
  intro qt
  induction qt with
  | leaf r k =>
    intro u hu
    exact ⟨.leaf r k, self_mem_subNodes _, hu⟩
  | node r k c0 c1 c2 c3 ih0 ih1 ih2 ih3 =>
    intro u hu
    simp only [QTInner.allKept, List.mem_append] at hu
    rcases hu with hu | (((hu | hu) | hu) | hu)
    · exact ⟨.node r k c0 c1 c2 c3, self_mem_subNodes _, hu⟩
    · obtain ⟨n, hn, hun⟩ := ih0 u hu
      exact ⟨n, mem_subNodes_of_child (by simp [QTInner.childrenList]) hn, hun⟩
    · obtain ⟨n, hn, hun⟩ := ih1 u hu
      exact ⟨n, mem_subNodes_of_child (by simp [QTInner.childrenList]) hn, hun⟩
    · obtain ⟨n, hn, hun⟩ := ih2 u hu
      exact ⟨n, mem_subNodes_of_child (by simp [QTInner.childrenList]) hn, hun⟩
    · obtain ⟨n, hn, hun⟩ := ih3 u hu
      exact ⟨n, mem_subNodes_of_child (by simp [QTInner.childrenList]) hn, hun⟩

theorem mem_dom_of_allKept {dom : List Nat} {store : Nat → Area} {qt : QTInner} {u : Nat}
    (hinv : treeInv dom store qt) (hu : u ∈ qt.allKept) : u ∈ dom := by
  obtain ⟨n, hn, hun⟩ := allKept_exists qt u hu
  exact (hinv n hn).2.2.2 u hun

theorem region_of_allKept {dom : List Nat} {store : Nat → Area} {qt : QTInner} {u : Nat}
    (hinv : treeInv dom store qt) (hu : u ∈ qt.allKept) :
    qt.region.contains (store u) = true := by
  obtain ⟨n, hn, hun⟩ := allKept_exists qt u hu
  have hdom := (hinv n hn).2.2.2 u hun
  have hcont := (((hinv n hn).2.2.1 u hdom).1 hun).1
  exact Area.contains_trans (region_mono qt n hinv hn) hcont

/-- Completeness of placement: a live entry whose region is contained in a
subtree's region is kept somewhere in that subtree (direct consequence of the
kept-at-the-deepest-containing-node invariant). -/
theorem mem_allKept_of_contains {dom : List Nat} {store : Nat → Area} :
    ∀ (qt : QTInner) (u : Nat), treeInv dom store qt → u ∈ dom →
      qt.region.contains (store u) = true → u ∈ qt.allKept := by
  intro qt
  induction qt with
  | leaf r k =>
    intro u hinv hdom hcont
    have hok := treeInv_self hinv
    have := (hok.2.2.1 u hdom).2 ⟨by simpa [QTInner.region] using hcont, by
      intro c hc
      simp [QTInner.childrenList] at hc⟩
    simpa [QTInner.kept_uuids] using this
  | node r k c0 c1 c2 c3 ih0 ih1 ih2 ih3 =>
    intro u hinv hdom hcont
    have hok := treeInv_self hinv
    by_cases h0 : c0.region.contains (store u) = true
    · have := ih0 u (treeInv_child hinv (by simp [QTInner.childrenList])) hdom h0
      simp [QTInner.allKept, this]
    · by_cases h1 : c1.region.contains (store u) = true
      · have := ih1 u (treeInv_child hinv (by simp [QTInner.childrenList])) hdom h1
        simp [QTInner.allKept, this]
      · by_cases h2 : c2.region.contains (store u) = true
        · have := ih2 u (treeInv_child hinv (by simp [QTInner.childrenList])) hdom h2
          simp [QTInner.allKept, this]
        · by_cases h3 : c3.region.contains (store u) = true
          · have := ih3 u (treeInv_child hinv (by simp [QTInner.childrenList])) hdom h3
            simp [QTInner.allKept, this]
          · have hkept := (hok.2.2.1 u hdom).2 ⟨by simpa [QTInner.region] using hcont, by
              intro c hc
              simp only [QTInner.childrenList, List.mem_cons, List.not_mem_nil,
                or_false] at hc
              rcases hc with rfl | rfl | rfl | rfl
              · simpa using h0
              · simpa using h1
              · simpa using h2
              · simpa using h3⟩
            simp only [QTInner.kept_uuids] at hkept
            simp [QTInner.allKept, hkept]

theorem treeInv_mem {dom : List Nat} {store : Nat → Area} {qt n : QTInner}
    (h : treeInv dom store qt) (hn : n ∈ qt.subNodes) : treeInv dom store n :=
  fun m hm => h m (subNodes_trans qt n m hn hm)

theorem descendAnchor_mem_subNodes (req : Area) :
    ∀ qt : QTInner, descendAnchor req qt ∈ qt.subNodes := by
  intro qt
  induction qt with
  | leaf r k => simp [descendAnchor, QTInner.subNodes]
  | node r k c0 c1 c2 c3 ih0 ih1 ih2 ih3 =>
    by_cases hr : r.contains req = true
    · by_cases hc0 : c0.region.contains req = true
      · rw [descendAnchor]
        simp only [hr, hc0, if_pos]
        exact mem_subNodes_of_child (by simp [QTInner.childrenList]) ih0
      · by_cases hc1 : c1.region.contains req = true
        · rw [descendAnchor]
          simp only [hr, hc0, hc1, if_pos, if_neg, not_false_iff]
          exact mem_subNodes_of_child (by simp [QTInner.childrenList]) ih1
        · by_cases hc2 : c2.region.contains req = true
          · rw [descendAnchor]
            simp only [hr, hc0, hc1, hc2, if_pos, if_neg, not_false_iff]
            exact mem_subNodes_of_child (by simp [QTInner.childrenList]) ih2
          · by_cases hc3 : c3.region.contains req = true
            · rw [descendAnchor]
              simp only [hr, hc0, hc1, hc2, hc3, if_pos, if_neg, not_false_iff]
              exact mem_subNodes_of_child (by simp [QTInner.childrenList]) ih3
            · have : descendAnchor req (QTInner.node r k c0 c1 c2 c3) =
                  QTInner.node r k c0 c1 c2 c3 := by
                simp [descendAnchor, hr, hc0, hc1, hc2, hc3]
              rw [this]
              exact self_mem_subNodes _
    · rw [descendAnchor_of_not_contains (by
        simpa [QTInner.region] using hr)]
      exact self_mem_subNodes _

/-- One sibling-exclusion step: a live entry kept in the subtree of one
child cannot intersect a query region contained in a disjoint sibling. -/
theorem sibling_absurd {dom : List Nat} {store : Nat → Area} {req : Area}
    {cj ci : QTInner} {u : Nat}
    (hinvj : treeInv dom store cj) (hu : u ∈ cj.allKept)
    (hci : ci.region.contains req = true)
    (hint : (store u).intersects req = true)
    (hdisj : cj.region.intersects ci.region = false) : False := by
  have h1 := region_of_allKept hinvj hu
  have h2 := Area.intersects_of_contains h1 hci hint
  rw [hdisj] at h2
  exact Bool.false_ne_true h2

/-- Classification of an intersecting live entry under the descent: it is
collected from an ancestor left behind, or it lives at or below the anchor.
Entries in sibling subtrees cannot intersect the query region. -/
theorem overlap_classify {dom : List Nat} {store : Nat → Area} {req : Area} :
    ∀ (qt : QTInner) (u : Nat), treeInv dom store qt → u ∈ qt.allKept →
      (store u).intersects req = true →
      u ∈ keptConcat (descendLeft req qt) ∨ u ∈ (descendAnchor req qt).allKept := by
  intro qt
  induction qt with
  | leaf r k =>
    intro u _ hu _
    exact Or.inr (by simpa [descendAnchor] using hu)
  | node r k c0 c1 c2 c3 ih0 ih1 ih2 ih3 =>
    intro u hinv hu hint
    have hok := treeInv_self hinv
    obtain ⟨d01, d02, d03, d12, d13, d23⟩ := hok.2.1
    have hinv0 : treeInv dom store c0 := treeInv_child hinv (by simp [QTInner.childrenList])
    have hinv1 : treeInv dom store c1 := treeInv_child hinv (by simp [QTInner.childrenList])
    have hinv2 : treeInv dom store c2 := treeInv_child hinv (by simp [QTInner.childrenList])
    have hinv3 : treeInv dom store c3 := treeInv_child hinv (by simp [QTInner.childrenList])
    simp only [QTInner.allKept, List.mem_append] at hu
    by_cases hr : r.contains req = true
    · by_cases hc0 : c0.region.contains req = true
      · rw [descendLeft, descendAnchor]
        simp only [hr, hc0, if_pos, keptConcat, QTInner.kept_uuids, List.mem_append]
        rcases hu with hu | (((hu | hu) | hu) | hu)
        · exact Or.inl (Or.inl hu)
        · rcases ih0 u hinv0 hu hint with h | h
          · exact Or.inl (Or.inr h)
          · exact Or.inr h
        · exact absurd (sibling_absurd hinv1 hu hc0 hint
            (by rw [Area.intersects_comm]; exact d01)) not_false
        · exact absurd (sibling_absurd hinv2 hu hc0 hint
            (by rw [Area.intersects_comm]; exact d02)) not_false
        · exact absurd (sibling_absurd hinv3 hu hc0 hint
            (by rw [Area.intersects_comm]; exact d03)) not_false
      · by_cases hc1 : c1.region.contains req = true
        · rw [descendLeft, descendAnchor]
          simp only [hr, hc0, hc1, if_pos, if_neg, not_false_iff, keptConcat,
            QTInner.kept_uuids, List.mem_append]
          rcases hu with hu | (((hu | hu) | hu) | hu)
          · exact Or.inl (Or.inl hu)
          · exact absurd (sibling_absurd hinv0 hu hc1 hint d01) not_false
          · rcases ih1 u hinv1 hu hint with h | h
            · exact Or.inl (Or.inr h)
            · exact Or.inr h
          · exact absurd (sibling_absurd hinv2 hu hc1 hint
              (by rw [Area.intersects_comm]; exact d12)) not_false
          · exact absurd (sibling_absurd hinv3 hu hc1 hint
              (by rw [Area.intersects_comm]; exact d13)) not_false
        · by_cases hc2 : c2.region.contains req = true
          · rw [descendLeft, descendAnchor]
            simp only [hr, hc0, hc1, hc2, if_pos, if_neg, not_false_iff, keptConcat,
              QTInner.kept_uuids, List.mem_append]
            rcases hu with hu | (((hu | hu) | hu) | hu)
            · exact Or.inl (Or.inl hu)
            · exact absurd (sibling_absurd hinv0 hu hc2 hint d02) not_false
            · exact absurd (sibling_absurd hinv1 hu hc2 hint d12) not_false
            · rcases ih2 u hinv2 hu hint with h | h
              · exact Or.inl (Or.inr h)
              · exact Or.inr h
            · exact absurd (sibling_absurd hinv3 hu hc2 hint
                (by rw [Area.intersects_comm]; exact d23)) not_false
          · by_cases hc3 : c3.region.contains req = true
            · rw [descendLeft, descendAnchor]
              simp only [hr, hc0, hc1, hc2, hc3, if_pos, if_neg, not_false_iff, keptConcat,
                QTInner.kept_uuids, List.mem_append]
              rcases hu with hu | (((hu | hu) | hu) | hu)
              · exact Or.inl (Or.inl hu)
              · exact absurd (sibling_absurd hinv0 hu hc3 hint d03) not_false
              · exact absurd (sibling_absurd hinv1 hu hc3 hint d13) not_false
              · exact absurd (sibling_absurd hinv2 hu hc3 hint d23) not_false
              · rcases ih3 u hinv3 hu hint with h | h
                · exact Or.inl (Or.inr h)
                · exact Or.inr h
            · have ha : descendAnchor req (QTInner.node r k c0 c1 c2 c3) =
                  QTInner.node r k c0 c1 c2 c3 := by
                simp [descendAnchor, hr, hc0, hc1, hc2, hc3]
              rw [ha]
              refine Or.inr ?_
              simp only [QTInner.allKept, List.mem_append]
              tauto
    · have ha : descendAnchor req (QTInner.node r k c0 c1 c2 c3) =
          QTInner.node r k c0 c1 c2 c3 := by
        simp [descendAnchor, hr]
      rw [ha]
      refine Or.inr ?_
      simp only [QTInner.allKept, List.mem_append]
      tauto

/-- Core of strict-mode completeness: a live entry of the subtree whose
region is fully contained in the query region lives at or below the anchor. -/
theorem strict_core {dom : List Nat} {store : Nat → Area} {req : Area} {qt : QTInner}
    {u : Nat} (hinv : treeInv dom store qt) (hu : u ∈ qt.allKept)
    (hcont : req.contains (store u) = true) :
    u ∈ (descendAnchor req qt).allKept := by
  by_cases hr : qt.region.contains req = true
  · have hanch := descendAnchor_contains req qt hr
    have hmem := descendAnchor_mem_subNodes req qt
    exact mem_allKept_of_contains (descendAnchor req qt) u (treeInv_mem hinv hmem)
      (mem_dom_of_allKept hinv hu) (Area.contains_trans hanch hcont)
  · rw [descendAnchor_of_not_contains (by simpa using hr)]
    exact hu

/-- Entry states of the successive recursive calls of the descent: each call
holds the current sole node on the node stack together with the identifier
stack and visited set at that point. -/
def descendTrace (req : Area) (tm : Traversal) :
    QTInner → List Nat → List Nat → List UuidIter
  | .leaf r k, us, vis => [{ uuid_stack := us, qt_stack := [.leaf r k], visited := vis }]
  | .node r k c0 c1 c2 c3, us, vis =>
    { uuid_stack := us, qt_stack := [.node r k c0 c1 c2 c3], visited := vis } ::
    (if r.contains req then
      (if c0.region.contains req then descendTrace req tm c0 (pushKept tm k us) vis
       else if c1.region.contains req then descendTrace req tm c1 (pushKept tm k us) vis
       else if c2.region.contains req then descendTrace req tm c2 (pushKept tm k us) vis
       else if c3.region.contains req then descendTrace req tm c3 (pushKept tm k us) vis
       else [])
     else [])

/-- Every recursive descent call holds exactly one node on the node stack. -/
theorem descendTrace_single (req : Area) (tm : Traversal) :
    ∀ (qt : QTInner) (us vis : List Nat) (s : UuidIter),
      s ∈ descendTrace req tm qt us vis → s.qt_stack.length = 1 := by
  intro qt
  induction qt with
  | leaf r k =>
    intro us vis s hs
    simp only [descendTrace, List.mem_singleton] at hs
    subst hs
    rfl
  | node r k c0 c1 c2 c3 ih0 ih1 ih2 ih3 =>
    intro us vis s hs
    simp only [descendTrace, List.mem_cons] at hs
    rcases hs with rfl | hs
    · rfl
    · by_cases hr : r.contains req = true
      · by_cases hc0 : c0.region.contains req = true
        · simp only [hr, hc0, if_pos] at hs
          exact ih0 _ _ _ hs
        · by_cases hc1 : c1.region.contains req = true
          · simp [hr, hc0, hc1] at hs
            exact ih1 _ _ _ hs
          · by_cases hc2 : c2.region.contains req = true
            · simp [hr, hc0, hc1, hc2] at hs
              exact ih2 _ _ _ hs
            · by_cases hc3 : c3.region.contains req = true
              · simp [hr, hc0, hc1, hc2, hc3] at hs
                exact ih3 _ _ _ hs
              · simp [hr, hc0, hc1, hc2, hc3] at hs
      · simp [hr] at hs

/-- The node stacks along the descent are exactly the singleton stacks of the
left-behind ancestors followed by the anchor. -/
theorem descendTrace_qt_stacks (req : Area) (tm : Traversal) :
    ∀ (qt : QTInner) (us vis : List Nat),
      (descendTrace req tm qt us vis).map UuidIter.qt_stack =
        (descendLeft req qt ++ [descendAnchor req qt]).map (fun n => [n]) := by
  intro qt
  induction qt with
  | leaf r k =>
    intro us vis
    simp [descendTrace, descendLeft, descendAnchor]
  | node r k c0 c1 c2 c3 ih0 ih1 ih2 ih3 =>
    intro us vis
    by_cases hr : r.contains req = true
    · by_cases hc0 : c0.region.contains req = true
      · simp [descendTrace, descendLeft, descendAnchor, hr, hc0, ih0]
      · by_cases hc1 : c1.region.contains req = true
        · simp [descendTrace, descendLeft, descendAnchor, hr, hc0, hc1, ih1]
        · by_cases hc2 : c2.region.contains req = true
          · simp [descendTrace, descendLeft, descendAnchor, hr, hc0, hc1, hc2, ih2]
          · by_cases hc3 : c3.region.contains req = true
            · simp [descendTrace, descendLeft, descendAnchor, hr, hc0, hc1, hc2, hc3, ih3]
            · simp [descendTrace, descendLeft, descendAnchor, hr, hc0, hc1, hc2, hc3]
    · simp [descendTrace, descendLeft, descendAnchor, hr]

/-- The descent path starts at the starting node. -/
theorem descendPath_head (req : Area) (qt : QTInner) :
    ∃ rest, descendLeft req qt ++ [descendAnchor req qt] = qt :: rest := by
  cases qt with
  | leaf r k => exact ⟨[], by simp [descendLeft, descendAnchor]⟩
  | node r k c0 c1 c2 c3 =>
    by_cases hr : r.contains req = true
    · by_cases hc0 : c0.region.contains req = true
      · exact ⟨descendLeft req c0 ++ [descendAnchor req c0],
          by simp [descendLeft, descendAnchor, hr, hc0]⟩
      · by_cases hc1 : c1.region.contains req = true
        · exact ⟨descendLeft req c1 ++ [descendAnchor req c1],
            by simp [descendLeft, descendAnchor, hr, hc0, hc1]⟩
        · by_cases hc2 : c2.region.contains req = true
          · exact ⟨descendLeft req c2 ++ [descendAnchor req c2],
              by simp [descendLeft, descendAnchor, hr, hc0, hc1, hc2]⟩
          · by_cases hc3 : c3.region.contains req = true
            · exact ⟨descendLeft req c3 ++ [descendAnchor req c3],
                by simp [descendLeft, descendAnchor, hr, hc0, hc1, hc2, hc3]⟩
            · exact ⟨[], by simp [descendLeft, descendAnchor, hr, hc0, hc1, hc2, hc3]⟩
    · exact ⟨[], by simp [descendLeft, descendAnchor, hr]⟩

/-- Each step of the descent path moves into a child of the previous node. -/
theorem descendPath_chain (req : Area) :
    ∀ qt : QTInner,
      List.Chain' (fun a b => b ∈ a.childrenList)
        (descendLeft req qt ++ [descendAnchor req qt]) := by
  intro qt
  induction qt with
  | leaf r k => simp [descendLeft, descendAnchor]
  | node r k c0 c1 c2 c3 ih0 ih1 ih2 ih3 =>
    by_cases hr : r.contains req = true
    · by_cases hc0 : c0.region.contains req = true
      · obtain ⟨rest, hrest⟩ := descendPath_head req c0
        have hgoal : descendLeft req (QTInner.node r k c0 c1 c2 c3) ++
            [descendAnchor req (QTInner.node r k c0 c1 c2 c3)] =
            QTInner.node r k c0 c1 c2 c3 :: (descendLeft req c0 ++ [descendAnchor req c0]) := by
          simp [descendLeft, descendAnchor, hr, hc0]
        rw [hgoal, hrest, List.chain'_cons]
        refine ⟨by simp [QTInner.childrenList], ?_⟩
        rw [← hrest]
        exact ih0
      · by_cases hc1 : c1.region.contains req = true
        · obtain ⟨rest, hrest⟩ := descendPath_head req c1
          have hgoal : descendLeft req (QTInner.node r k c0 c1 c2 c3) ++
              [descendAnchor req (QTInner.node r k c0 c1 c2 c3)] =
              QTInner.node r k c0 c1 c2 c3 :: (descendLeft req c1 ++ [descendAnchor req c1]) := by
            simp [descendLeft, descendAnchor, hr, hc0, hc1]
          rw [hgoal, hrest, List.chain'_cons]
          refine ⟨by simp [QTInner.childrenList], ?_⟩
          rw [← hrest]
          exact ih1
        · by_cases hc2 : c2.region.contains req = true
          · obtain ⟨rest, hrest⟩ := descendPath_head req c2
            have hgoal : descendLeft req (QTInner.node r k c0 c1 c2 c3) ++
                [descendAnchor req (QTInner.node r k c0 c1 c2 c3)] =
                QTInner.node r k c0 c1 c2 c3 ::
                  (descendLeft req c2 ++ [descendAnchor req c2]) := by
              simp [descendLeft, descendAnchor, hr, hc0, hc1, hc2]
            rw [hgoal, hrest, List.chain'_cons]
            refine ⟨by simp [QTInner.childrenList], ?_⟩
            rw [← hrest]
            exact ih2
          · by_cases hc3 : c3.region.contains req = true
            · obtain ⟨rest, hrest⟩ := descendPath_head req c3
              have hgoal : descendLeft req (QTInner.node r k c0 c1 c2 c3) ++
                  [descendAnchor req (QTInner.node r k c0 c1 c2 c3)] =
                  QTInner.node r k c0 c1 c2 c3 ::
                    (descendLeft req c3 ++ [descendAnchor req c3]) := by
                simp [descendLeft, descendAnchor, hr, hc0, hc1, hc2, hc3]
              rw [hgoal, hrest, List.chain'_cons]
              refine ⟨by simp [QTInner.childrenList], ?_⟩
              rw [← hrest]
              exact ih3
            · have hgoal : descendLeft req (QTInner.node r k c0 c1 c2 c3) ++
                  [descendAnchor req (QTInner.node r k c0 c1 c2 c3)] =
                  [QTInner.node r k c0 c1 c2 c3] := by
                simp [descendLeft, descendAnchor, hr, hc0, hc1, hc2, hc3]
              rw [hgoal]
              simp
    · have hgoal : descendLeft req (QTInner.node r k c0 c1 c2 c3) ++
          [descendAnchor req (QTInner.node r k c0 c1 c2 c3)] =
          [QTInner.node r k c0 c1 c2 c3] := by
        simp [descendLeft, descendAnchor, hr]
      rw [hgoal]
      simp

/-- Repeated application of `next`: `some` is a still-running iterator after
the given number of yields, `none` means the iterator was exhausted within
that many calls. -/
def iterSteps : Nat → UuidIter → Option UuidIter
  | 0, it => some it
  | n + 1, it =>
    match UuidIter.next it with
    | none => none
    | some (_, it') => iterSteps n it'

theorem iterSteps_none_mono :
    ∀ (k : Nat) (it : UuidIter) (m : Nat), iterSteps k it = none → k ≤ m →
      iterSteps m it = none := by
  intro k
  induction k with
  | zero => intro it m h _; simp [iterSteps] at h
  | succ k ih =>
    intro it m h hkm
    cases m with
    | zero => omega
    | succ m =>
      simp only [iterSteps] at h ⊢
      cases hn : UuidIter.next it with
      | none => rfl
      | some p =>
        obtain ⟨u, it'⟩ := p
        rw [hn] at h
        exact ih it' m h (by omega)

theorem measure_zero_next_none {it : UuidIter} (h : UuidIter.sizeMeasure it = 0) :
    UuidIter.next it = none := by
  obtain ⟨us, qs, vis⟩ := it
  have hus : us = [] := by
    cases us with
    | nil => rfl
    | cons a l => simp [UuidIter.sizeMeasure] at h
  have hqs : qs = [] := by
    cases qs with
    | nil => rfl
    | cons q l =>
      exfalso
      have := QTInner.weight_pos q
      simp [UuidIter.sizeMeasure] at h
      omega
  subst hus; subst hqs
  exact UuidIter.next_nil

theorem iterSteps_exhausts :
    ∀ (k : Nat) (it : UuidIter), UuidIter.sizeMeasure it ≤ k →
      iterSteps (k + 1) it = none := by
  intro k
  induction k with
  | zero =>
    intro it hk
    simp only [iterSteps]
    rw [measure_zero_next_none (by omega)]
  | succ k ih =>
    intro it hk
    simp only [iterSteps]
    cases hn : UuidIter.next it with
    | none => rfl
    | some p =>
      obtain ⟨u, it'⟩ := p
      have := UuidIter.next_some_measure_lt hn
      exact ih it' (by omega)

/-- Reachability of an iterator state from a starting state together with the
list of identifiers yielded along the way. -/
inductive Reach : UuidIter → UuidIter → List Nat → Prop where
  | refl (it : UuidIter) : Reach it it []
  | step {it0 it1 it2 : UuidIter} {ys : List Nat} {u : Nat} :
      Reach it0 it1 ys → UuidIter.next it1 = some (u, it2) → Reach it0 it2 (ys ++ [u])

instance instDecSibsDisjoint : ∀ n : QTInner, Decidable (sibsDisjoint n)
  | .leaf _ _ => isTrue trivial
  | .node _ _ c0 c1 c2 c3 =>
    inferInstanceAs (Decidable
      (c0.region.intersects c1.region = false ∧ c0.region.intersects c2.region = false ∧
       c0.region.intersects c3.region = false ∧ c1.region.intersects c2.region = false ∧
       c1.region.intersects c3.region = false ∧ c2.region.intersects c3.region = false))

instance instDecNodeOk (dom : List Nat) (store : Nat → Area) (n : QTInner) :
    Decidable (nodeOk dom store n) := by
  unfold nodeOk
  infer_instance

instance instDecTreeInv (dom : List Nat) (store : Nat → Area) (qt : QTInner) :
    Decidable (treeInv dom store qt) := by
  unfold treeInv
  infer_instance

/-- Concrete quadtree used to instantiate hypotheses of the main theorems:
a split root covering the 2x2 square at the origin whose four unit quadrants
are leaves, with entry 0 kept at the first quadrant. -/
def wTree : QTInner :=
  QTInner.node ⟨0, 0, 2, 2⟩ []
    (QTInner.leaf ⟨0, 0, 1, 1⟩ [0]) (QTInner.leaf ⟨1, 0, 1, 1⟩ [])
    (QTInner.leaf ⟨0, 1, 1, 1⟩ []) (QTInner.leaf ⟨1, 1, 1, 1⟩ [])

/-- Entry store for `wTree`: the single entry 0 occupies the first unit
cell. -/
def wStore : Nat → Area := fun _ => ⟨0, 0, 1, 1⟩

/-- Live identifiers for `wTree`. -/
def wDom : List Nat := [0]

/-- A query region contained in `wTree`'s first quadrant. -/
def wReq : Area := ⟨0, 0, 1, 1⟩

/-- A query region outside `wTree`'s coverage. -/
def wReqOut : Area := ⟨5, 5, 1, 1⟩

/-- C1: on a tree satisfying the node invariants, the `Overlapping`-mode
descent-pruning loses no intersecting identifier relative to the unoptimized
iteration, and the identifiers yielded after the pre-pass are exactly those
kept at or below the anchor plus those eagerly collected from the left-behind
ancestors. -/
theorem overlapping_query_no_false_negatives (dom : List Nat) (store : Nat → Area)
    (qt : QTInner) (req : Area) (hinv : treeInv dom store qt) :
    (∀ u, u ∈ UuidIter.drain (UuidIter.new qt) → (store u).intersects req = true →
      u ∈ UuidIter.drain
        (UuidIter.query_optimization req Traversal.Overlapping (UuidIter.new qt))) ∧
    (∀ u, u ∈ UuidIter.drain
        (UuidIter.query_optimization req Traversal.Overlapping (UuidIter.new qt)) ↔
      (u ∈ (descendAnchor req qt).allKept ∨ u ∈ keptConcat (descendLeft req qt))) := by
  have hopt : ∀ u, u ∈ UuidIter.drain
      (UuidIter.query_optimization req Traversal.Overlapping (UuidIter.new qt)) ↔
      (u ∈ (descendAnchor req qt).allKept ∨ u ∈ keptConcat (descendLeft req qt)) := by
    intro u
    rw [query_optimization_new, UuidIter.mem_drain]
    simp [pushAll]
    tauto
  refine ⟨?_, hopt⟩
  intro u hu hint
  have hall : u ∈ qt.allKept := by
    rw [UuidIter.mem_drain] at hu
    simpa [UuidIter.new] using hu
  rcases overlap_classify qt u hinv hall hint with h | h
  · exact (hopt u).2 (Or.inr h)
  · exact (hopt u).2 (Or.inl h)

theorem overlapping_query_no_false_negatives_witness :
    treeInv wDom wStore wTree ∧
    0 ∈ UuidIter.drain
      (UuidIter.query_optimization wReq Traversal.Overlapping (UuidIter.new wTree)) :=
  ⟨by decide, (overlapping_query_no_false_negatives wDom wStore wTree wReq (by decide)).1 0
    (by decide) (by decide)⟩

/-- C2: on a tree satisfying the node invariants, the `Strict`-mode
descent-pruning (which discards ancestor kept-identifiers) loses no
identifier whose entry region is fully contained in the query region. -/
theorem strict_query_no_false_negatives (dom : List Nat) (store : Nat → Area)
    (qt : QTInner) (req : Area) (hinv : treeInv dom store qt) :
    ∀ u, u ∈ UuidIter.drain (UuidIter.new qt) → req.contains (store u) = true →
      u ∈ UuidIter.drain
        (UuidIter.query_optimization req Traversal.Strict (UuidIter.new qt)) := by
  intro u hu hcont
  have hall : u ∈ qt.allKept := by
    rw [UuidIter.mem_drain] at hu
    simpa [UuidIter.new] using hu
  have hanch := strict_core hinv hall hcont
  rw [query_optimization_new, UuidIter.mem_drain]
  simpa [pushAll] using hanch

theorem strict_query_no_false_negatives_witness :
    treeInv wDom wStore wTree ∧
    0 ∈ UuidIter.drain
      (UuidIter.query_optimization wReq Traversal.Strict (UuidIter.new wTree)) :=
  ⟨by decide, strict_query_no_false_negatives wDom wStore wTree wReq (by decide) 0
    (by decide) (by decide)⟩

/-- C3: iterating a freshly constructed engine to exhaustion yields exactly
the identifiers kept anywhere in the subtree of the starting node, each
exactly once (order unspecified). -/
theorem full_iteration_yields_all_exactly_once (qt : QTInner) :
    (UuidIter.drain (UuidIter.new qt)).Nodup ∧
    ∀ u, u ∈ UuidIter.drain (UuidIter.new qt) ↔ u ∈ qt.allKept := by
  refine ⟨UuidIter.drain_nodup _, fun u => ?_⟩
  rw [UuidIter.mem_drain]
  simp [UuidIter.new]

/-- C4: the kept identifiers of nodes left behind by the descent are pushed
onto the identifier stack exactly when the traversal mode is `Overlapping`;
in particular a `Strict` descent leaves the identifier stack empty. -/
theorem descent_push_iff_overlapping (req : Area) (qt : QTInner) :
    (∀ tm, (UuidIter.query_optimization req tm (UuidIter.new qt)).uuid_stack =
      if tm = Traversal.Overlapping then (keptConcat (descendLeft req qt)).reverse
      else []) ∧
    (UuidIter.query_optimization req Traversal.Strict (UuidIter.new qt)).uuid_stack
      = [] := by
  have h : ∀ tm, (UuidIter.query_optimization req tm (UuidIter.new qt)).uuid_stack =
      if tm = Traversal.Overlapping then (keptConcat (descendLeft req qt)).reverse
      else [] := by
    intro tm
    rw [query_optimization_new]
    cases tm <;> simp [pushAll]
  exact ⟨h, by simpa using h Traversal.Strict⟩

/-- C5: after the pre-pass the node stack holds exactly the anchor; if the
starting region does not contain the query region the anchor is the starting
node, otherwise the anchor's region contains the query region and none of its
children's regions do. -/
theorem descent_anchor_properties (req : Area) (tm : Traversal) (qt : QTInner) :
    (UuidIter.query_optimization req tm (UuidIter.new qt)).qt_stack =
      [descendAnchor req qt] ∧
    (qt.region.contains req = false → descendAnchor req qt = qt) ∧
    (qt.region.contains req = true →
      (descendAnchor req qt).region.contains req = true ∧
      ∀ c ∈ (descendAnchor req qt).childrenList, c.region.contains req = false) :=
  ⟨by rw [query_optimization_new], fun h => descendAnchor_of_not_contains h,
    fun h => ⟨descendAnchor_contains req qt h, descendAnchor_no_child_contains req qt h⟩⟩

theorem descent_anchor_properties_witness :
    wTree.region.contains wReq = true ∧
    (descendAnchor wReq wTree).region.contains wReq = true :=
  ⟨by decide, ((descent_anchor_properties wReq Traversal.Strict wTree).2.2 (by decide)).1⟩

/-- C6: on a freshly constructed engine the entry assertions of
`query_optimization` hold (one pending node, empty identifier stack, empty
visited set), and every recursive descent call again holds exactly one
pending node — the node stacks along the descent are precisely the singleton
ancestor stacks followed by the anchor. -/
theorem descent_assertions_hold (req : Area) (tm : Traversal) (qt : QTInner) :
    ((UuidIter.new qt).qt_stack.length = 1 ∧ (UuidIter.new qt).uuid_stack = [] ∧
      (UuidIter.new qt).visited = []) ∧
    (∀ s ∈ descendTrace req tm qt [] [], s.qt_stack.length = 1) ∧
    (descendTrace req tm qt [] []).map UuidIter.qt_stack =
      (descendLeft req qt ++ [descendAnchor req qt]).map (fun n => [n]) :=
  ⟨⟨rfl, rfl, rfl⟩, fun s hs => descendTrace_single req tm qt [] [] s hs,
    descendTrace_qt_stacks req tm qt [] []⟩

theorem descent_assertions_hold_witness :
    ({ uuid_stack := [], qt_stack := [wTree], visited := [] } : UuidIter).qt_stack.length
      = 1 :=
  (descent_assertions_hold wReq Traversal.Overlapping wTree).2.1
    { uuid_stack := [], qt_stack := [wTree], visited := [] } (by decide)

/-- C7: along any iteration starting from an engine with an empty visited
set, the visited set is exactly the set of identifiers yielded so far, and no
identifier is ever yielded twice. -/
theorem visited_tracks_yields (it0 it : UuidIter) (ys : List Nat)
    (hr : Reach it0 it ys) :
    it0.visited = [] → ((∀ u, u ∈ it.visited ↔ u ∈ ys) ∧ ys.Nodup) := by
  induction hr with
  | refl =>
    intro h0
    simp [h0]
  | @step it1 it2 ys' u hr1 hn ih =>
    intro h0
    obtain ⟨hmem, hnd⟩ := ih h0
    obtain ⟨hnotv, hvis⟩ := UuidIter.next_some_spec hn
    have hnotys : u ∉ ys' := fun hc => hnotv ((hmem u).2 hc)
    constructor
    · intro v
      rw [hvis]
      simp only [List.mem_cons, List.mem_append, List.mem_singleton]
      rw [hmem v]
      tauto
    · refine List.Nodup.append hnd (List.nodup_singleton u) ?_
      intro a ha hb
      simp only [List.mem_singleton] at hb
      subst hb
      exact hnotys ha

theorem visited_tracks_yields_witness :
    (UuidIter.new wTree).visited = [] ∧ ([] : List Nat).Nodup :=
  ⟨rfl, (visited_tracks_yields (UuidIter.new wTree) (UuidIter.new wTree) []
    (Reach.refl _) rfl).2⟩

/-- C8: the descent walks a strict parent-to-child path (hence terminates),
`next` needs only bounded fuel (its internal recursion terminates), and any
iterator — in particular one primed by `query_optimization` — is exhausted
after finitely many calls to `next`. -/
theorem traversal_terminates (req : Area) (tm : Traversal) (qt : QTInner)
    (it : UuidIter) (f : Nat) :
    List.Chain' (fun a b => b ∈ a.childrenList)
      (descendLeft req qt ++ [descendAnchor req qt]) ∧
    (UuidIter.sizeMeasure it ≤ f → UuidIter.nextFuel f it = UuidIter.next it) ∧
    iterSteps (UuidIter.sizeMeasure it + 1) it = none ∧
    iterSteps
      (UuidIter.sizeMeasure (UuidIter.query_optimization req tm (UuidIter.new qt)) + 1)
      (UuidIter.query_optimization req tm (UuidIter.new qt)) = none :=
  ⟨descendPath_chain req qt, fun h => (UuidIter.next_eq_fuel f it h).symm,
    iterSteps_exhausts _ it le_rfl, iterSteps_exhausts _ _ le_rfl⟩

theorem traversal_terminates_witness :
    UuidIter.nextFuel (UuidIter.sizeMeasure (UuidIter.new wTree)) (UuidIter.new wTree) =
      UuidIter.next (UuidIter.new wTree) :=
  (traversal_terminates wReq Traversal.Strict wTree (UuidIter.new wTree)
    (UuidIter.sizeMeasure (UuidIter.new wTree))).2.1 le_rfl

/-- C10: when the starting node's region does not contain the query region,
`query_optimization` leaves the freshly constructed engine completely
unchanged in either mode, so iteration proceeds as the unoptimized full
traversal. -/
theorem noncontaining_query_unchanged (req : Area) (tm : Traversal) (qt : QTInner)
    (h : qt.region.contains req = false) :
    UuidIter.query_optimization req tm (UuidIter.new qt) = UuidIter.new qt ∧
    UuidIter.drain (UuidIter.query_optimization req tm (UuidIter.new qt)) =
      UuidIter.drain (UuidIter.new qt) := by
  have h1 : UuidIter.query_optimization req tm (UuidIter.new qt) = UuidIter.new qt := by
    rw [query_optimization_new, descendAnchor_of_not_contains h,
      descendLeft_of_not_contains h, pushAll_nil]
    rfl
  exact ⟨h1, by rw [h1]⟩

theorem noncontaining_query_unchanged_witness :
    wTree.region.contains wReqOut = false ∧
    UuidIter.query_optimization wReqOut Traversal.Overlapping (UuidIter.new wTree) =
      UuidIter.new wTree :=
  ⟨by decide,
    (noncontaining_query_unchanged wReqOut Traversal.Overlapping wTree (by decide)).1⟩

/-- Modelled from the spec: the four equal quadrants obtained by bisecting a
region along both axes (exact for the power-of-two region sizes produced by
construction). -/
def Area.quadrants (a : Area) : Area × Area × Area × Area :=
  (⟨a.x, a.y, a.w / 2, a.h / 2⟩, ⟨a.x + a.w / 2, a.y, a.w / 2, a.h / 2⟩,
   ⟨a.x, a.y + a.h / 2, a.w / 2, a.h / 2⟩,
   ⟨a.x + a.w / 2, a.y + a.h / 2, a.w / 2, a.h / 2⟩)

/-- Keep an identifier directly at a node. -/
def addKept (id : Nat) : QTInner → QTInner
  | .leaf r k => .leaf r (id :: k)
  | .node r k c0 c1 c2 c3 => .node r (id :: k) c0 c1 c2 c3

/-- Modelled from the spec: node insertion from the missing tree-node module
(spec 4.2). The first argument is the remaining subdivision depth. At the
maximum depth the entry is kept at the node without splitting; otherwise a
childless node is split into its four quadrants; the entry descends into the
(unique) child whose region contains its region, and is kept at the current
node when no single child contains it. -/
def insertInto : Nat → Area → Nat → QTInner → QTInner
  | 0, _, id, qt => addKept id qt
  | d + 1, e, id, qt =>
    match qt with
    | .leaf r k =>
      let q := r.quadrants
      if q.1.contains e then
        .node r k (insertInto d e id (.leaf q.1 [])) (.leaf q.2.1 [])
          (.leaf q.2.2.1 []) (.leaf q.2.2.2 [])
      else if q.2.1.contains e then
        .node r k (.leaf q.1 []) (insertInto d e id (.leaf q.2.1 []))
          (.leaf q.2.2.1 []) (.leaf q.2.2.2 [])
      else if q.2.2.1.contains e then
        .node r k (.leaf q.1 []) (.leaf q.2.1 [])
          (insertInto d e id (.leaf q.2.2.1 [])) (.leaf q.2.2.2 [])
      else if q.2.2.2.contains e then
        .node r k (.leaf q.1 []) (.leaf q.2.1 []) (.leaf q.2.2.1 [])
          (insertInto d e id (.leaf q.2.2.2 []))
      else .node r (id :: k) (.leaf q.1 []) (.leaf q.2.1 [])
        (.leaf q.2.2.1 []) (.leaf q.2.2.2 [])
    | .node r k c0 c1 c2 c3 =>
      if c0.region.contains e then .node r k (insertInto d e id c0) c1 c2 c3
      else if c1.region.contains e then .node r k c0 (insertInto d e id c1) c2 c3
      else if c2.region.contains e then .node r k c0 c1 (insertInto d e id c2) c3
      else if c3.region.contains e then .node r k c0 c1 c2 (insertInto d e id c3)
      else .node r (id :: k) c0 c1 c2 c3

/-- Remove the listed identifiers from every kept-set of the subtree. -/
def removeKept (ids : List Nat) : QTInner → QTInner
  | .leaf r k => .leaf r (k.filter (fun u => decide (u ∉ ids)))
  | .node r k c0 c1 c2 c3 =>
    .node r (k.filter (fun u => decide (u ∉ ids)))
      (removeKept ids c0) (removeKept ids c1) (removeKept ids c2) (removeKept ids c3)

/-- Modelled from the spec: the quadtree facade (spec 4.4) from the missing
root module, holding the root node, the entry store (identifier, region,
value), the identifier mint counter and the configured maximum depth. -/
structure Quadtree where
  root : QTInner
  store : List (Nat × Area × Int)
  counter : Nat
  depth : Nat

/-- Modelled from the spec: construction with an anchor point and a maximum
subdivision depth; coverage is `2 ^ depth` per axis. -/
def Quadtree.new_with_anchor (ax ay : Int) (depth : Nat) : Quadtree :=
  { root := .leaf ⟨ax, ay, 2 ^ depth, 2 ^ depth⟩ [], store := [], counter := 0,
    depth := depth }

/-- Modelled from the spec: `insert` mints a fresh identifier, records the
entry in the store, and inserts the identifier into the root node. -/
def Quadtree.insert (q : Quadtree) (a : Area) (v : Int) : Quadtree :=
  { root := insertInto q.depth a q.counter q.root,
    store := q.store ++ [(q.counter, a, v)],
    counter := q.counter + 1, depth := q.depth }

/-- Modelled from the spec: bulk insertion of anchor-point/value pairs, each
as a unit-square region (as in the repository's tests). -/
def Quadtree.extendPts (q : Quadtree) (entries : List ((Int × Int) × Int)) : Quadtree :=
  entries.foldl (fun acc e => acc.insert ⟨e.1.1, e.1.2, 1, 1⟩ e.2) q

/-- Modelled from the spec: `delete(region)` queries in `Overlapping` mode,
re-applies the exact intersection predicate at the facade, removes every
matching entry from the store and from the kept-sets, and returns the removed
entries eagerly. -/
def Quadtree.delete (q : Quadtree) (req : Area) : List (Nat × Area × Int) × Quadtree :=
  let ids := UuidIter.drain
    (UuidIter.query_optimization req Traversal.Overlapping (UuidIter.new q.root))
  let hit : Nat × Area × Int → Bool := fun e => decide (e.1 ∈ ids) && req.intersects e.2.1
  let removed := q.store.filter hit
  (removed,
   { root := removeKept (removed.map (fun e => e.1)) q.root,
     store := q.store.filter (fun e => !(hit e)),
     counter := q.counter, depth := q.depth })

/-- Modelled from the spec: `len` reports the entry store's cardinality. -/
def Quadtree.len (q : Quadtree) : Nat := q.store.length

/-- The three-entry quadtree of the repository's iterator tests: anchor
`(-35, -35)`, depth 8, entries `((0,-5),10)`, `((-15,20),-25)`,
`((30,-35),40)`. -/
def testTree : Quadtree :=
  (Quadtree.new_with_anchor (-35) (-35) 8).extendPts
    [((0, -5), 10), ((-15, 20), -25), ((30, -35), 40)]

/-- C9: on the three-entry test tree, deleting the near-miss unit region at
`(29,-36)` removes nothing; deleting the unit region at `(30,-35)` removes
exactly the entry of value 40 with its region, leaving two entries; deleting
the region anchored at `(-15,-5)` of size `(16,26)` removes exactly the
entries of values 10 and -25, leaving one. -/
theorem delete_region_scenarios :
    testTree.len = 3 ∧
    ((testTree.delete ⟨29, -36, 1, 1⟩).1 = [] ∧
      (testTree.delete ⟨29, -36, 1, 1⟩).2.len = 3) ∧
    ((testTree.delete ⟨30, -35, 1, 1⟩).1 = [(2, ⟨30, -35, 1, 1⟩, 40)] ∧
      (testTree.delete ⟨30, -35, 1, 1⟩).2.len = 2) ∧
    ((testTree.delete ⟨-15, -5, 16, 26⟩).1 =
        [(0, ⟨0, -5, 1, 1⟩, 10), (1, ⟨-15, 20, 1, 1⟩, -25)] ∧
      (testTree.delete ⟨-15, -5, 16, 26⟩).2.len = 1) := by
  decide
